import Mathlib

/-!
Verification of `src/dictionaries/english/build-dictionary.py`.

The script reads a gzip-compressed word list in binary mode, so each
iterated line is a byte string (here: `List Nat`, one entry per byte).
For each line it runs `word.strip()` (both-ends ASCII-whitespace strip on
bytes), takes `n = len(word)` (the BYTE length of the stripped bytes),
lazily opens `{n}.txt` with mode "w" on the first word of that length,
and writes `word.decode("utf-8") + "\n"` through the retained handle.
After the loop it closes every handle.  A `UnicodeDecodeError` aborts the
run before the close loop.

Output file contents are modelled as lists of Unicode code points; the
directory maps a length `n` (standing for the file name `n.txt`) to the
content of that file, or `none` when no such file exists.
-/

namespace BuildDictionary

/-- The ASCII whitespace bytes removed by Python `bytes.strip()`:
space, tab, newline, carriage return, vertical tab, form feed. -/
def isSpace (b : Nat) : Bool :=
  b == 32 || b == 9 || b == 10 || b == 13 || b == 11 || b == 12

/-- Python `bytes.strip()`: remove leading AND trailing ASCII whitespace.
This is what line 8 of the script (`word = word.strip()`) does. -/
def bstrip (l : List Nat) : List Nat :=
  ((l.dropWhile isSpace).reverse.dropWhile isSpace).reverse

/-- Trailing-only whitespace strip (Python `bytes.rstrip()`).  The script
does NOT use this; it is stated here only because the specification
describes the word as the line after a trailing-whitespace strip, and we
compare that description against the code's `bstrip`. -/
def trailingStrip (l : List Nat) : List Nat :=
  (l.reverse.dropWhile isSpace).reverse

/-- Whether a byte is a UTF-8 continuation byte (`0x80..0xBF`). -/
def isCont (b : Nat) : Bool := 128 ≤ b && b < 192

/-- Decode one UTF-8 sequence from the front of a byte list, strictly:
stray or missing continuation bytes, overlong encodings, surrogates and
values above `U+10FFFF` are rejected.  Returns the code point and the
remaining bytes. -/
def utf8DecodeOne : List Nat → Option (Nat × List Nat)
  | [] => none
  | b :: l =>
    if b < 128 then some (b, l)
    else if b < 194 then none
    else if b < 224 then
      match l with
      | b1 :: l1 =>
        if isCont b1 then some ((b - 192) * 64 + (b1 - 128), l1) else none
      | [] => none
    else if b < 240 then
      match l with
      | b1 :: b2 :: l2 =>
        if isCont b1 && isCont b2 then
          let c := (b - 224) * 4096 + (b1 - 128) * 64 + (b2 - 128)
          if 2048 ≤ c && !(55296 ≤ c && c < 57344) then some (c, l2)
          else none
        else none
      | _ => none
    else if b < 245 then
      match l with
      | b1 :: b2 :: b3 :: l3 =>
        if isCont b1 && isCont b2 && isCont b3 then
          let c := (b - 240) * 262144 + (b1 - 128) * 4096 + (b2 - 128) * 64
            + (b3 - 128)
          if 65536 ≤ c && c < 1114112 then some (c, l3) else none
        else none
      | _ => none
    else none

/-- Fuelled iteration of `utf8DecodeOne`; the fuel only bounds the
recursion depth and is irrelevant once it is at least the list length. -/
def utf8DecodeAux : Nat → List Nat → Option (List Nat)
  | _, [] => some []
  | 0, _ :: _ => none
  | fuel + 1, b :: l =>
    match utf8DecodeOne (b :: l) with
    | none => none
    | some (c, r) => (utf8DecodeAux fuel r).map (fun cs => c :: cs)

/-- Strict UTF-8 decoding of a byte sequence into Unicode code points,
as Python's `bytes.decode("utf-8")`; `none` is a `UnicodeDecodeError`. -/
def utf8Decode (l : List Nat) : Option (List Nat) :=
  utf8DecodeAux l.length l

/-- Standard UTF-8 encoding of one Unicode code point. -/
def utf8EncodeChar (c : Nat) : List Nat :=
  if c < 128 then [c]
  else if c < 2048 then [192 + c / 64, 128 + c % 64]
  else if c < 65536 then [224 + c / 4096, 128 + (c / 64) % 64, 128 + c % 64]
  else [240 + c / 262144, 128 + (c / 4096) % 64, 128 + (c / 64) % 64,
    128 + c % 64]

/-- Standard UTF-8 encoding of a code-point sequence. -/
def utf8Encode (cs : List Nat) : List Nat :=
  (cs.map utf8EncodeChar).flatten

/-- Interpreter state while the main loop runs: `dir` is the working
directory (file `n.txt` content, as code points), `keys` are the keys of
the Python dict `dictFiles` in insertion order (each holding an open
handle), and `opens` is the log of `open(f"{n}.txt", "w")` calls made so
far, in order. -/
structure St where
  dir : Nat → Option (List Nat)
  keys : List Nat
  opens : List Nat

/-- Effect of `dictFiles[n] = open(f"{n}.txt", "w")`: mode "w" creates
the file, truncating any pre-existing file of the same name. -/
def openNew (st : St) (n : Nat) : St where
  dir := fun m => if m = n then some [] else st.dir m
  keys := st.keys ++ [n]
  opens := st.opens ++ [n]

/-- Effect of `dictFiles[n].write(word.decode("utf-8") + "\n")` once the
decode has succeeded with code points `cs`: append `cs` and a newline
(code point 10) to the file held by the handle for `n`. -/
def writeWord (st : St) (n : Nat) (cs : List Nat) : St where
  dir := fun m =>
    if m = n then some (((st.dir n).getD []) ++ cs ++ [10]) else st.dir m
  keys := st.keys
  opens := st.opens

/-- The body of the main loop, one source line at a time.  The result
flag is `true` when the loop may continue; it is `false` when
`word.decode("utf-8")` raised, in which case the returned state is the
state at the moment of the abort (note the bucket file has already been
opened by then). -/
def procLines (st : St) : List (List Nat) → St × Bool
  | [] => (st, true)
  | line :: rest =>
    let word := bstrip line
    let n := word.length
    let st1 := if n ∈ st.keys then st else openNew st n
    match utf8Decode word with
    | none => (st1, false)
    | some cs => procLines (writeWord st1 n cs) rest

/-- Observable outcome of one run of the script: the final directory,
the log of file opens, the log of file closes, and whether the process
exited with status 0. -/
structure RunResult where
  dir : Nat → Option (List Nat)
  opens : List Nat
  closes : List Nat
  exitOk : Bool

/-- The whole script, run against an initial working directory `dir0`
with decompressed source lines `src`.  On normal completion the trailing
loop `for f in dictFiles.values(): f.close()` closes every handle; when
the main loop aborts with a decode error that loop is never reached, so
nothing is closed. -/
def buildDictionary (dir0 : Nat → Option (List Nat))
    (src : List (List Nat)) : RunResult :=
  let r := procLines ⟨dir0, [], []⟩ src
  ⟨r.1.dir, r.1.opens, if r.2 then r.1.keys else [], r.2⟩

/-- The byte length of the stripped line: the value `n = len(word)` the
script computes for a source line. -/
def wordLen (line : List Nat) : Nat := (bstrip line).length

/-- The decoded text of the stripped line (the string the script writes,
without the appended newline); `[]` if the line does not decode. -/
def decodedWord (line : List Nat) : List Nat :=
  (utf8Decode (bstrip line)).getD []

/-- The sequence of bucket indices (`len(word)` values) of a source. -/
def srcLens (src : List (List Nat)) : List Nat := src.map wordLen

/-- Whether every line of the source decodes as UTF-8 after stripping. -/
def allValid (src : List (List Nat)) : Prop :=
  ∀ l ∈ src, (utf8Decode (bstrip l)).isSome = true

/-- The words that end up in file `n.txt`, in source order: the decoded
stripped lines whose stripped byte length is `n`. -/
def fileWords (src : List (List Nat)) (n : Nat) : List (List Nat) :=
  (src.filter (fun l => wordLen l == n)).map decodedWord

/-- The full content of file `n.txt` after a successful run: each word
of the bucket followed by a newline, concatenated in source order. -/
def expectedContent (src : List (List Nat)) (n : Nat) : List Nat :=
  ((fileWords src n).map (fun w => w ++ [10])).flatten

/-- The genuinely new dict keys created while processing bucket indices
`ls` starting from existing keys `ks`, in order of first appearance. -/
def newKeys (ks : List Nat) : List Nat → List Nat
  | [] => []
  | n :: ls =>
    if n ∈ ks then newKeys ks ls else n :: newKeys (ks ++ [n]) ls

@[simp]
lemma openNew_dir (st : St) (n m : Nat) :
    (openNew st n).dir m = if m = n then some [] else st.dir m := rfl

@[simp]
lemma openNew_keys (st : St) (n : Nat) :
    (openNew st n).keys = st.keys ++ [n] := rfl

@[simp]
lemma openNew_opens (st : St) (n : Nat) :
    (openNew st n).opens = st.opens ++ [n] := rfl

@[simp]
lemma writeWord_dir (st : St) (n : Nat) (cs : List Nat) (m : Nat) :
    (writeWord st n cs).dir m =
      if m = n then some (((st.dir n).getD []) ++ cs ++ [10]) else st.dir m :=
  rfl

@[simp]
lemma writeWord_keys (st : St) (n : Nat) (cs : List Nat) :
    (writeWord st n cs).keys = st.keys := rfl

@[simp]
lemma writeWord_opens (st : St) (n : Nat) (cs : List Nat) :
    (writeWord st n cs).opens = st.opens := rfl

lemma procLines_nil (st : St) : procLines st [] = (st, true) := rfl

lemma procLines_cons_some (st : St) (line : List Nat)
    (rest : List (List Nat)) (cs : List Nat)
    (h : utf8Decode (bstrip line) = some cs) :
    procLines st (line :: rest) =
      procLines
        (writeWord (if wordLen line ∈ st.keys then st
          else openNew st (wordLen line)) (wordLen line) cs) rest := by
  simp [procLines, wordLen, h]

lemma procLines_cons_none (st : St) (line : List Nat)
    (rest : List (List Nat)) (h : utf8Decode (bstrip line) = none) :
    procLines st (line :: rest) =
      (if wordLen line ∈ st.keys then st
        else openNew st (wordLen line), false) := by
  simp [procLines, wordLen, h]

lemma srcLens_cons (line : List Nat) (rest : List (List Nat)) :
    srcLens (line :: rest) = wordLen line :: srcLens rest := rfl

lemma fileWords_cons (line : List Nat) (rest : List (List Nat)) (n : Nat) :
    fileWords (line :: rest) n =
      if wordLen line = n then decodedWord line :: fileWords rest n
      else fileWords rest n := by
  by_cases h : wordLen line = n <;> simp [fileWords, List.filter_cons, h]

lemma expectedContent_cons (line : List Nat) (rest : List (List Nat))
    (n : Nat) :
    expectedContent (line :: rest) n =
      if wordLen line = n then
        (decodedWord line ++ [10]) ++ expectedContent rest n
      else expectedContent rest n := by
  by_cases h : wordLen line = n <;>
    simp [expectedContent, fileWords_cons, h]

lemma mem_append_newKeys (ls : List Nat) : ∀ (ks : List Nat) (m : Nat),
    m ∈ ks ++ newKeys ks ls ↔ m ∈ ks ∨ m ∈ ls := by
  induction ls with
  | nil => intro ks m; simp [newKeys]
  | cons n ls ih =>
    intro ks m
    by_cases hn : n ∈ ks
    · rw [newKeys]
      simp only [hn, if_true]
      rw [ih ks m]
      constructor
      · rintro (h | h)
        · exact Or.inl h
        · exact Or.inr (List.mem_cons_of_mem _ h)
      · rintro (h | h)
        · exact Or.inl h
        · rcases List.mem_cons.mp h with h | h
          · exact Or.inl (h ▸ hn)
          · exact Or.inr h
    · rw [newKeys]
      simp only [hn, if_false]
      have : ks ++ n :: newKeys (ks ++ [n]) ls
          = (ks ++ [n]) ++ newKeys (ks ++ [n]) ls := by simp
      rw [this, ih (ks ++ [n]) m]
      simp only [List.mem_append, List.mem_singleton, List.mem_cons]
      tauto

lemma nodup_append_newKeys (ls : List Nat) : ∀ ks : List Nat,
    ks.Nodup → (ks ++ newKeys ks ls).Nodup := by
  induction ls with
  | nil => intro ks h; simpa [newKeys] using h
  | cons n ls ih =>
    intro ks h
    by_cases hn : n ∈ ks
    · rw [newKeys]; simp only [hn, if_true]; exact ih ks h
    · rw [newKeys]
      simp only [hn, if_false]
      have heq : ks ++ n :: newKeys (ks ++ [n]) ls
          = (ks ++ [n]) ++ newKeys (ks ++ [n]) ls := by simp
      rw [heq]
      refine ih (ks ++ [n]) ?_
      simpa [List.nodup_append, List.disjoint_singleton] using ⟨h, hn⟩

theorem procLines_ok (src : List (List Nat)) : ∀ st : St,
    (∀ l ∈ src, (utf8Decode (bstrip l)).isSome = true) →
    (∀ n ∈ st.keys, (st.dir n).isSome = true) →
    (procLines st src).2 = true ∧
    (procLines st src).1.keys = st.keys ++ newKeys st.keys (srcLens src) ∧
    (procLines st src).1.opens = st.opens ++ newKeys st.keys (srcLens src) ∧
    ∀ n, (procLines st src).1.dir n =
      if n ∈ st.keys then
        some (((st.dir n).getD []) ++ expectedContent src n)
      else if n ∈ srcLens src then some (expectedContent src n)
      else st.dir n := by
  induction src with
  | nil =>
    intro st _ hk
    refine ⟨rfl, by simp [procLines_nil, srcLens, newKeys],
      by simp [procLines_nil, srcLens, newKeys], ?_⟩
    intro n
    rw [procLines_nil]
    by_cases hn : n ∈ st.keys
    · rcases Option.isSome_iff_exists.mp (hk n hn) with ⟨c, hc⟩
      simp [hn, hc, expectedContent, fileWords]
    · simp [hn, srcLens]
  | cons line rest ih =>
    intro st hval hk
    obtain ⟨cs, hcs⟩ := Option.isSome_iff_exists.mp
      (hval line (List.mem_cons_self _ _))
    set n0 := wordLen line with hn0def
    set st1 := if n0 ∈ st.keys then st else openNew st n0 with hst1
    have hrw := procLines_cons_some st line rest cs hcs
    rw [← hn0def, ← hst1] at hrw
    set st2 := writeWord st1 n0 cs with hst2
    have hkeys1 : st1.keys = if n0 ∈ st.keys then st.keys
        else st.keys ++ [n0] := by
      by_cases h : n0 ∈ st.keys <;> simp [hst1, h]
    have hopens1 : st1.opens = if n0 ∈ st.keys then st.opens
        else st.opens ++ [n0] := by
      by_cases h : n0 ∈ st.keys <;> simp [hst1, h]
    have hdir1 : ∀ m, m ≠ n0 → st1.dir m = st.dir m := by
      intro m hm
      by_cases h : n0 ∈ st.keys <;> simp [hst1, h, hm]
    have hdirn0 : st1.dir n0 = if n0 ∈ st.keys then st.dir n0
        else some [] := by
      by_cases h : n0 ∈ st.keys <;> simp [hst1, h]
    have hk2 : ∀ n ∈ st2.keys, (st2.dir n).isSome = true := by
      intro n hn
      by_cases hnn : n = n0
      · simp [hst2, hnn]
      · rw [hst2]
        simp only [writeWord_dir, writeWord_keys, hnn, if_false]
        rw [hdir1 n hnn]
        rw [hst2] at hn
        simp only [writeWord_keys, hkeys1] at hn
        by_cases h : n0 ∈ st.keys
        · simp only [h, if_true] at hn
          exact hk n hn
        · simp only [h, if_false, List.mem_append,
            List.mem_singleton] at hn
          rcases hn with hn | hn
          · exact hk n hn
          · exact absurd hn hnn
    have hval2 : ∀ l ∈ rest, (utf8Decode (bstrip l)).isSome = true :=
      fun l hl => hval l (List.mem_cons_of_mem _ hl)
    obtain ⟨hok, hkeys, hopens, hdir⟩ := ih st2 hval2 hk2
    rw [hrw]
    have hkeys2 : st2.keys = st1.keys := rfl
    have hopens2 : st2.opens = st1.opens := rfl
    have hmem2 : ∀ m, m ∈ st2.keys ↔ m ∈ st.keys ∨ m = n0 := by
      intro m
      rw [hkeys2, hkeys1]
      by_cases h : n0 ∈ st.keys
      · simp only [h, if_true]
        constructor
        · exact Or.inl
        · rintro (hm | hm)
          · exact hm
          · exact hm ▸ h
      · simp [h]
    refine ⟨hok, ?_, ?_, ?_⟩
    · rw [hkeys, hkeys2, hkeys1, srcLens_cons, ← hn0def, newKeys]
      by_cases h : n0 ∈ st.keys
      · simp [h]
      · simp [h]
    · rw [hopens, hopens2, hopens1, hkeys2, hkeys1, srcLens_cons,
        ← hn0def, newKeys]
      by_cases h : n0 ∈ st.keys
      · simp [h]
      · simp [h]
    · intro n
      rw [hdir n]
      have hE : expectedContent (line :: rest) n =
          if n0 = n then (cs ++ [10]) ++ expectedContent rest n
          else expectedContent rest n := by
        rw [expectedContent_cons, ← hn0def]
        have : decodedWord line = cs := by
          simp [decodedWord, hcs]
        by_cases h : n0 = n <;> simp [h, this]
      by_cases hnn : n = n0
      · subst hnn
        have hmem : n0 ∈ st2.keys := (hmem2 n0).mpr (Or.inr rfl)
        simp only [hmem, if_true]
        have hd2 : st2.dir n0
            = some (((st1.dir n0).getD []) ++ cs ++ [10]) := by
          simp [hst2]
        rw [hd2]
        simp only [Option.getD_some]
        have hEn : expectedContent (line :: rest) n0
            = (cs ++ [10]) ++ expectedContent rest n0 := by
          rw [hE]; simp
        by_cases h : n0 ∈ st.keys
        · simp only [h, if_true]
          rw [hdirn0]
          simp only [h, if_true]
          rw [hEn]
          simp [List.append_assoc]
        · simp only [h, if_false]
          rw [hdirn0]
          simp only [h, if_false, Option.getD_some]
          have hmemsl : n0 ∈ srcLens (line :: rest) := by
            rw [srcLens_cons, ← hn0def]
            exact List.mem_cons_self _ _
          simp only [hmemsl, if_true]
          rw [hEn]
          simp
      · have hd2 : st2.dir n = st.dir n := by
          rw [hst2]
          simp only [writeWord_dir, hnn, if_false]
          exact hdir1 n hnn
        rw [hd2]
        have hmem : (n ∈ st2.keys) ↔ (n ∈ st.keys) := by
          rw [hmem2]
          constructor
          · rintro (h | h)
            · exact h
            · exact absurd h hnn
          · exact Or.inl
        have hE2 : expectedContent (line :: rest) n
            = expectedContent rest n := by
          have hne : ¬ n0 = n := fun h => hnn h.symm
          rw [hE, if_neg hne]
        have hsl : (n ∈ srcLens (line :: rest)) ↔ (n ∈ srcLens rest) := by
          rw [srcLens_cons, ← hn0def]
          simp only [List.mem_cons]
          constructor
          · rintro (h | h)
            · exact absurd h hnn
            · exact h
          · exact Or.inr
        by_cases h1 : n ∈ st.keys
        · simp only [hmem.mpr h1, h1, if_true, hE2]
        · have h2 : ¬ n ∈ st2.keys := fun h => h1 (hmem.mp h)
          simp only [h2, h1, if_false, hE2]
          by_cases h3 : n ∈ srcLens rest
          · simp [h3, hsl.mpr h3]
          · have h4 : ¬ n ∈ srcLens (line :: rest) :=
              fun h => h3 (hsl.mp h)
            simp [h3, h4]

lemma procLines_append_ok : ∀ (xs : List (List Nat)) (st : St),
    (procLines st xs).2 = true → ∀ ys : List (List Nat),
    procLines st (xs ++ ys) = procLines (procLines st xs).1 ys := by
  intro xs
  induction xs with
  | nil => intro st _ ys; simp [procLines_nil]
  | cons line xs ih =>
    intro st hok ys
    cases hdec : utf8Decode (bstrip line) with
    | none =>
      rw [procLines_cons_none st line xs hdec] at hok
      simp at hok
    | some cs =>
      rw [List.cons_append,
        procLines_cons_some st line (xs ++ ys) cs hdec,
        procLines_cons_some st line xs cs hdec]
      rw [procLines_cons_some st line xs cs hdec] at hok
      exact ih _ hok ys

/-- Full characterization of a successful run: exit status 0, the set of
opened (and then closed) buckets is the set of lengths present in the
source in first-appearance order, and file `n.txt` holds exactly the
expected content, with files the run never touched left as they were. -/
theorem buildDictionary_ok (dir0 : Nat → Option (List Nat))
    (src : List (List Nat)) (hval : allValid src) :
    (buildDictionary dir0 src).exitOk = true ∧
    (buildDictionary dir0 src).opens = newKeys [] (srcLens src) ∧
    (buildDictionary dir0 src).closes = newKeys [] (srcLens src) ∧
    ∀ n, (buildDictionary dir0 src).dir n =
      if n ∈ srcLens src then some (expectedContent src n) else dir0 n := by
  obtain ⟨hok, hkeys, hopens, hdir⟩ :=
    procLines_ok src ⟨dir0, [], []⟩ hval (by intro n hn; simp at hn)
  have hopens2 : (procLines ⟨dir0, [], []⟩ src).1.opens
      = newKeys [] (srcLens src) := by simpa using hopens
  have hkeys2 : (procLines ⟨dir0, [], []⟩ src).1.keys
      = newKeys [] (srcLens src) := by simpa using hkeys
  refine ⟨?_, ?_, ?_, ?_⟩
  · simp [buildDictionary, hok]
  · simp [buildDictionary, hopens2]
  · simp [buildDictionary, hok, hkeys2]
  · intro n
    have := hdir n
    simp only [List.not_mem_nil, if_false] at this
    simpa [buildDictionary] using this

/-- Full characterization of a run that hits an invalid UTF-8 line `bad`
after the valid prefix `pre`: the process exits with an error, no handle
is ever closed, the bucket file for `len(bad.strip())` has been opened
(and truncated to empty if it was not already a bucket of `pre`), and the
contents written so far are exactly those of `pre`. -/
theorem buildDictionary_err (dir0 : Nat → Option (List Nat))
    (pre : List (List Nat)) (bad : List Nat) (rest : List (List Nat))
    (hpre : allValid pre) (hbad : utf8Decode (bstrip bad) = none) :
    (buildDictionary dir0 (pre ++ bad :: rest)).exitOk = false ∧
    (buildDictionary dir0 (pre ++ bad :: rest)).closes = [] ∧
    (buildDictionary dir0 (pre ++ bad :: rest)).opens =
      (if wordLen bad ∈ srcLens pre then newKeys [] (srcLens pre)
        else newKeys [] (srcLens pre) ++ [wordLen bad]) ∧
    ∀ n, (buildDictionary dir0 (pre ++ bad :: rest)).dir n =
      if n ∈ srcLens pre then some (expectedContent pre n)
      else if n = wordLen bad then some [] else dir0 n := by
  obtain ⟨hok, hkeys, hopens, hdir⟩ :=
    procLines_ok pre ⟨dir0, [], []⟩ hpre (by intro n hn; simp at hn)
  set stp := (procLines ⟨dir0, [], []⟩ pre).1 with hstp
  have hkeys2 : stp.keys = newKeys [] (srcLens pre) := by simpa using hkeys
  have hopens2 : stp.opens = newKeys [] (srcLens pre) := by
    simpa using hopens
  have hmemk : ∀ m, m ∈ stp.keys ↔ m ∈ srcLens pre := by
    intro m
    rw [hkeys2]
    have := mem_append_newKeys (srcLens pre) [] m
    simpa using this
  have happ := procLines_append_ok pre ⟨dir0, [], []⟩ hok (bad :: rest)
  rw [← hstp] at happ
  have hstep := procLines_cons_none stp bad rest hbad
  rw [hstep] at happ
  have hdirp : ∀ n, stp.dir n =
      if n ∈ srcLens pre then some (expectedContent pre n)
      else dir0 n := by
    intro n
    have := hdir n
    simp only [List.not_mem_nil, if_false] at this
    simpa using this
  by_cases hb : wordLen bad ∈ srcLens pre
  · have hbk : wordLen bad ∈ stp.keys := (hmemk _).mpr hb
    rw [if_pos hbk] at happ
    refine ⟨?_, ?_, ?_, ?_⟩
    · simp [buildDictionary, happ]
    · simp [buildDictionary, happ]
    · simp only [buildDictionary, happ]
      simpa [hb] using hopens2
    · intro n
      simp only [buildDictionary, happ]
      rw [hdirp n]
      by_cases hn : n ∈ srcLens pre
      · simp [hn]
      · have hnb : ¬ n = wordLen bad := fun h => hn (h ▸ hb)
        simp [hn, hnb]
  · have hbk : ¬ wordLen bad ∈ stp.keys := fun h => hb ((hmemk _).mp h)
    rw [if_neg hbk] at happ
    refine ⟨?_, ?_, ?_, ?_⟩
    · simp [buildDictionary, happ]
    · simp [buildDictionary, happ]
    · simp only [buildDictionary, happ]
      simpa [hb] using congrArg (fun l => l ++ [wordLen bad]) hopens2
    · intro n
      simp only [buildDictionary, happ]
      by_cases hn : n = wordLen bad
      · subst hn
        simp [hb]
      · simp only [openNew_dir, hn, if_false]
        rw [hdirp n]


lemma utf8Encode_cons (c : Nat) (cs : List Nat) :
    utf8Encode (c :: cs) = utf8EncodeChar c ++ utf8Encode cs := by
  simp [utf8Encode]

lemma utf8EncodeChar_decodeOne : ∀ (l : List Nat) (c : Nat) (r : List Nat),
    utf8DecodeOne l = some (c, r) → utf8EncodeChar c ++ r = l := by
  intro l c r h
  rcases l with _ | ⟨b, t⟩
  · simp [utf8DecodeOne] at h
  · simp only [utf8DecodeOne] at h
    by_cases hb0 : b < 128
    · rw [if_pos hb0] at h
      obtain ⟨rfl, rfl⟩ : b = c ∧ t = r := by simpa using h
      simp [utf8EncodeChar, hb0]
    · rw [if_neg hb0] at h
      by_cases hb1 : b < 194
      · rw [if_pos hb1] at h
        exact absurd h (by simp)
      · rw [if_neg hb1] at h
        by_cases hb2 : b < 224
        · rw [if_pos hb2] at h
          rcases t with _ | ⟨b1, t1⟩
          · exact absurd h (by simp)
          · simp only [] at h
            by_cases hc1 : isCont b1
            · rw [if_pos hc1] at h
              obtain ⟨rfl, rfl⟩ :
                  (b - 192) * 64 + (b1 - 128) = c ∧ t1 = r := by
                simpa using h
              have hk1 : 128 ≤ b1 ∧ b1 < 192 := by simpa [isCont] using hc1
              rw [utf8EncodeChar, if_neg (by omega), if_pos (by omega)]
              have e1 : 192 + ((b - 192) * 64 + (b1 - 128)) / 64 = b := by
                omega
              have e2 : 128 + ((b - 192) * 64 + (b1 - 128)) % 64 = b1 := by
                omega
              rw [e1, e2]
              rfl
            · rw [if_neg hc1] at h
              exact absurd h (by simp)
        · rw [if_neg hb2] at h
          by_cases hb3 : b < 240
          · rw [if_pos hb3] at h
            rcases t with _ | ⟨b1, _ | ⟨b2, t2⟩⟩
            · exact absurd h (by simp)
            · exact absurd h (by simp)
            · simp only [] at h
              by_cases hc12 : (isCont b1 && isCont b2) = true
              · rw [if_pos hc12] at h
                split at h
                · rename_i hguard
                  obtain ⟨rfl, rfl⟩ :
                      (b - 224) * 4096 + (b1 - 128) * 64 + (b2 - 128) = c
                        ∧ t2 = r := by simpa using h
                  have hk1 : (128 ≤ b1 ∧ b1 < 192)
                      ∧ (128 ≤ b2 ∧ b2 < 192) := by
                    simpa [isCont] using hc12
                  have hge : 2048 ≤
                      (b - 224) * 4096 + (b1 - 128) * 64 + (b2 - 128) := by
                    simp only [Bool.and_eq_true, decide_eq_true_eq]
                      at hguard
                    exact hguard.1
                  rw [utf8EncodeChar, if_neg (by omega), if_neg (by omega),
                    if_pos (by omega)]
                  have e1 : 224 + ((b - 224) * 4096 + (b1 - 128) * 64
                      + (b2 - 128)) / 4096 = b := by omega
                  have e2 : 128 + (((b - 224) * 4096 + (b1 - 128) * 64
                      + (b2 - 128)) / 64) % 64 = b1 := by omega
                  have e3 : 128 + ((b - 224) * 4096 + (b1 - 128) * 64
                      + (b2 - 128)) % 64 = b2 := by omega
                  rw [e1, e2, e3]
                  rfl
                · exact absurd h (by simp)
              · rw [if_neg hc12] at h
                exact absurd h (by simp)
          · rw [if_neg hb3] at h
            by_cases hb4 : b < 245
            · rw [if_pos hb4] at h
              rcases t with _ | ⟨b1, _ | ⟨b2, _ | ⟨b3, t3⟩⟩⟩
              · exact absurd h (by simp)
              · exact absurd h (by simp)
              · exact absurd h (by simp)
              · simp only [] at h
                by_cases hc123 : (isCont b1 && isCont b2 && isCont b3)
                    = true
                · rw [if_pos hc123] at h
                  split at h
                  · rename_i hguard
                    obtain ⟨rfl, rfl⟩ :
                        (b - 240) * 262144 + (b1 - 128) * 4096
                          + (b2 - 128) * 64 + (b3 - 128) = c ∧ t3 = r := by
                      simpa using h
                    have hk1 : (128 ≤ b1 ∧ b1 < 192)
                        ∧ (128 ≤ b2 ∧ b2 < 192)
                        ∧ (128 ≤ b3 ∧ b3 < 192) := by
                      simp only [Bool.and_eq_true] at hc123
                      refine ⟨?_, ?_, ?_⟩
                      · simpa [isCont] using hc123.1.1
                      · simpa [isCont] using hc123.1.2
                      · simpa [isCont] using hc123.2
                    have hge : 65536 ≤ (b - 240) * 262144
                        + (b1 - 128) * 4096 + (b2 - 128) * 64
                        + (b3 - 128) := by
                      simp only [Bool.and_eq_true, decide_eq_true_eq]
                        at hguard
                      exact hguard.1
                    rw [utf8EncodeChar, if_neg (by omega),
                      if_neg (by omega), if_neg (by omega)]
                    have e1 : 240 + ((b - 240) * 262144 + (b1 - 128) * 4096
                        + (b2 - 128) * 64 + (b3 - 128)) / 262144 = b := by
                      omega
                    have e2 : 128 + (((b - 240) * 262144
                        + (b1 - 128) * 4096 + (b2 - 128) * 64
                        + (b3 - 128)) / 4096) % 64 = b1 := by omega
                    have e3 : 128 + (((b - 240) * 262144
                        + (b1 - 128) * 4096 + (b2 - 128) * 64
                        + (b3 - 128)) / 64) % 64 = b2 := by omega
                    have e4 : 128 + ((b - 240) * 262144
                        + (b1 - 128) * 4096 + (b2 - 128) * 64
                        + (b3 - 128)) % 64 = b3 := by omega
                    rw [e1, e2, e3, e4]
                    rfl
                  · exact absurd h (by simp)
                · rw [if_neg hc123] at h
                  exact absurd h (by simp)
            · rw [if_neg hb4] at h
              exact absurd h (by simp)

lemma utf8DecodeOne_length (l : List Nat) (c : Nat) (r : List Nat)
    (h : utf8DecodeOne l = some (c, r)) : r.length < l.length := by
  have he := utf8EncodeChar_decodeOne l c r h
  have hpos : 0 < (utf8EncodeChar c).length := by
    rw [utf8EncodeChar]
    split_ifs <;> simp
  have := congrArg List.length he
  simp only [List.length_append] at this
  omega

lemma utf8DecodeAux_fuel : ∀ (f1 : Nat), ∀ (f2 : Nat) (l : List Nat),
    l.length ≤ f1 → l.length ≤ f2 →
    utf8DecodeAux f1 l = utf8DecodeAux f2 l := by
  intro f1
  induction f1 with
  | zero =>
    intro f2 l h1 _
    cases l with
    | nil =>
      cases f2 with
      | zero => rfl
      | succ f2 => rfl
    | cons b t => simp at h1
  | succ f1 ih =>
    intro f2 l h1 h2
    cases l with
    | nil =>
      cases f2 with
      | zero => rfl
      | succ f2 => rfl
    | cons b t =>
      cases f2 with
      | zero => simp at h2
      | succ f2 =>
        rw [utf8DecodeAux, utf8DecodeAux]
        cases hone : utf8DecodeOne (b :: t) with
        | none => rfl
        | some cr =>
          obtain ⟨c, r⟩ := cr
          have hr := utf8DecodeOne_length _ _ _ hone
          simp only [List.length_cons] at hr h1 h2
          simp only [ih f2 r (by omega) (by omega)]

lemma utf8DecodeAux_eq (f : Nat) (l : List Nat) (h : l.length ≤ f) :
    utf8DecodeAux f l = utf8Decode l :=
  utf8DecodeAux_fuel f l.length l h (le_refl _)

lemma utf8Decode_nil : utf8Decode [] = some [] := rfl

lemma utf8Decode_cons (b : Nat) (l : List Nat) :
    utf8Decode (b :: l) =
      match utf8DecodeOne (b :: l) with
      | none => none
      | some (c, r) => (utf8Decode r).map (fun cs => c :: cs) := by
  show utf8DecodeAux (b :: l).length (b :: l) = _
  rw [List.length_cons, utf8DecodeAux]
  cases hone : utf8DecodeOne (b :: l) with
  | none => rfl
  | some cr =>
    obtain ⟨c, r⟩ := cr
    have hr := utf8DecodeOne_length _ _ _ hone
    simp only [List.length_cons] at hr
    simp only [utf8DecodeAux_eq l.length r (by omega)]

theorem utf8Encode_decode : ∀ l cs : List Nat,
    utf8Decode l = some cs → utf8Encode cs = l := by
  have main : ∀ (N : Nat) (l cs : List Nat), l.length ≤ N →
      utf8Decode l = some cs → utf8Encode cs = l := by
    intro N
    induction N with
    | zero =>
      intro l cs hlen hdec
      cases l with
      | nil =>
        rw [utf8Decode_nil] at hdec
        obtain rfl : ([] : List Nat) = cs := by simpa using hdec
        rfl
      | cons b t => simp at hlen
    | succ N ih =>
      intro l cs hlen hdec
      cases l with
      | nil =>
        rw [utf8Decode_nil] at hdec
        obtain rfl : ([] : List Nat) = cs := by simpa using hdec
        rfl
      | cons b t =>
        rw [utf8Decode_cons] at hdec
        cases hone : utf8DecodeOne (b :: t) with
        | none =>
          rw [hone] at hdec
          exact absurd hdec (by simp)
        | some cr =>
          obtain ⟨c, r⟩ := cr
          rw [hone] at hdec
          simp only at hdec
          obtain ⟨cs', hdec', rfl⟩ := Option.map_eq_some'.mp hdec
          have hr := utf8DecodeOne_length _ _ _ hone
          simp only [List.length_cons] at hr hlen
          rw [utf8Encode_cons, ih r cs' (by omega) hdec']
          exact utf8EncodeChar_decodeOne _ _ _ hone
  intro l cs hdec
  exact main l.length l cs (le_refl _) hdec

/-- Strict UTF-8 decoding is injective: two byte sequences with the same
successful decode are equal. -/
theorem utf8Decode_inj (l1 l2 cs : List Nat)
    (h1 : utf8Decode l1 = some cs) (h2 : utf8Decode l2 = some cs) :
    l1 = l2 := by
  rw [← utf8Encode_decode l1 cs h1, ← utf8Encode_decode l2 cs h2]

lemma flatten_filter_perm_aux {α : Type} (k : α → Nat) :
    ∀ (L : List Nat), L.Nodup → ∀ (xs : List α),
    (∀ x ∈ xs, k x ∈ L) →
    ((L.map (fun n => xs.filter (fun x => k x == n))).flatten).Perm xs := by
  intro L
  induction L with
  | nil =>
    intro _ xs hcov
    cases xs with
    | nil => simp
    | cons x xs =>
      exact absurd (hcov x (List.mem_cons_self _ _)) (List.not_mem_nil _)
  | cons n L ih =>
    intro hnd xs hcov
    have hnodup := (List.nodup_cons.mp hnd).2
    have hnmem := (List.nodup_cons.mp hnd).1
    simp only [List.map_cons, List.flatten_cons]
    have hswap : ∀ m ∈ L, xs.filter (fun x => k x == m)
        = (xs.filter (fun x => !(k x == n))).filter
            (fun x => k x == m) := by
      intro m hm
      rw [List.filter_filter]
      refine (List.filter_congr ?_).symm
      intro x _
      by_cases hx : k x = m
      · have hmn : ¬ m = n := fun h => hnmem (h ▸ hm)
        simp [hx, hmn]
      · simp [hx]
    have hmapeq : L.map (fun m => xs.filter (fun x => k x == m))
        = L.map (fun m => (xs.filter (fun x => !(k x == n))).filter
            (fun x => k x == m)) :=
      List.map_congr_left hswap
    rw [hmapeq]
    have hcov2 : ∀ x ∈ xs.filter (fun x => !(k x == n)), k x ∈ L := by
      intro x hx
      obtain ⟨hx1, hx2⟩ := List.mem_filter.mp hx
      have := hcov x hx1
      rcases List.mem_cons.mp this with h | h
      · simp [h] at hx2
      · exact h
    have hperm := ih hnodup (xs.filter (fun x => !(k x == n))) hcov2
    refine ((hperm.append_left _).trans ?_)
    have : (fun x => k x == n) = fun x => decide (k x = n) := rfl
    exact List.filter_append_perm _ xs

/-- The output buckets partition the decoded words: concatenating the
word lists of all bucket files (one bucket per distinct length) yields a
permutation of the decoded stripped source words. -/
theorem fileWords_flatten_perm (src : List (List Nat)) :
    ((((srcLens src).dedup).map (fun n => fileWords src n)).flatten).Perm
      (src.map decodedWord) := by
  have base := flatten_filter_perm_aux wordLen (srcLens src).dedup
    (List.nodup_dedup _) src
    (by
      intro x hx
      rw [List.mem_dedup]
      exact List.mem_map_of_mem wordLen hx)
  have hmap := base.map decodedWord
  refine List.Perm.trans ?_ hmap
  rw [List.map_flatten, List.map_map]
  exact List.Perm.refl _

lemma procLines_opens_keys : ∀ (src : List (List Nat)) (st : St),
    st.opens = st.keys → st.keys.Nodup →
    (procLines st src).1.opens = (procLines st src).1.keys ∧
    (procLines st src).1.keys.Nodup := by
  intro src
  induction src with
  | nil => intro st h1 h2; rw [procLines_nil]; exact ⟨h1, h2⟩
  | cons line rest ih =>
    intro st h1 h2
    set n0 := wordLen line with hn0
    set st1 := if n0 ∈ st.keys then st else openNew st n0 with hst1
    have h1' : st1.opens = st1.keys := by
      by_cases h : n0 ∈ st.keys <;> simp [hst1, h, h1]
    have h2' : st1.keys.Nodup := by
      by_cases h : n0 ∈ st.keys
      · simpa [hst1, h] using h2
      · rw [hst1]
        simp only [h, if_false, openNew_keys]
        simpa [List.nodup_append, List.disjoint_singleton] using ⟨h2, h⟩
    cases hdec : utf8Decode (bstrip line) with
    | none =>
      rw [procLines_cons_none st line rest hdec, ← hn0, ← hst1]
      exact ⟨h1', h2'⟩
    | some cs =>
      rw [procLines_cons_some st line rest cs hdec, ← hn0, ← hst1]
      exact ih (writeWord st1 n0 cs) h1' h2'

lemma procLines_true_allValid : ∀ (src : List (List Nat)) (st : St),
    (procLines st src).2 = true →
    ∀ l ∈ src, (utf8Decode (bstrip l)).isSome = true := by
  intro src
  induction src with
  | nil => intro st _ l hl; exact absurd hl (List.not_mem_nil _)
  | cons line rest ih =>
    intro st hok l hl
    cases hdec : utf8Decode (bstrip line) with
    | none =>
      rw [procLines_cons_none st line rest hdec] at hok
      simp at hok
    | some cs =>
      rcases List.mem_cons.mp hl with h | h
      · rw [h, hdec]; rfl
      · rw [procLines_cons_some st line rest cs hdec] at hok
        exact ih _ hok l h

lemma dropWhile_decomp (l : List Nat) :
    ∃ pre, l = pre ++ l.dropWhile isSpace
      ∧ pre.all isSpace = true
      ∧ isSpace ((l.dropWhile isSpace).headD 0) = false := by
  induction l with
  | nil => exact ⟨[], rfl, rfl, rfl⟩
  | cons b t ih =>
    by_cases hb : isSpace b = true
    · obtain ⟨pre, h1, h2, h3⟩ := ih
      refine ⟨b :: pre, ?_, ?_, ?_⟩
      · rw [List.dropWhile_cons_of_pos hb]
        simpa using h1
      · simpa [hb] using h2
      · rwa [List.dropWhile_cons_of_pos hb]
    · refine ⟨[], ?_, rfl, ?_⟩
      · rw [List.dropWhile_cons_of_neg hb]
        rfl
      · rw [List.dropWhile_cons_of_neg hb]
        simpa using hb

lemma bstrip_decomp (line : List Nat) :
    ∃ pre suf, line = pre ++ bstrip line ++ suf
      ∧ pre.all isSpace = true ∧ suf.all isSpace = true
      ∧ isSpace ((bstrip line).headD 0) = false
      ∧ isSpace ((bstrip line).getLastD 0) = false := by
  obtain ⟨pre, hp1, hp2, hp3⟩ := dropWhile_decomp line
  set m := line.dropWhile isSpace with hm
  obtain ⟨suf0, hs1, hs2, hs3⟩ := dropWhile_decomp m.reverse
  have hbs : bstrip line = (m.reverse.dropWhile isSpace).reverse := rfl
  have hm2 : m = bstrip line ++ suf0.reverse := by
    have := congrArg List.reverse hs1
    rw [List.reverse_reverse, List.reverse_append] at this
    rw [this, hbs]
  refine ⟨pre, suf0.reverse, ?_, hp2, ?_, ?_, ?_⟩
  · conv_lhs => rw [hp1]
    rw [hm2, List.append_assoc]
  · rw [List.all_eq_true] at hs2 ⊢
    intro x hx
    exact hs2 x (List.mem_reverse.mp hx)
  · cases hb : bstrip line with
    | nil => rfl
    | cons x xs =>
      have hx : m.headD 0 = x := by rw [hm2, hb]; rfl
      show isSpace x = false
      rw [← hx]
      exact hp3
  · rw [hbs]
    have : (m.reverse.dropWhile isSpace).reverse.getLastD 0
        = (m.reverse.dropWhile isSpace).headD 0 := by
      cases hd : m.reverse.dropWhile isSpace with
      | nil => rfl
      | cons y ys =>
        have h1 := List.getLast?_reverse (y :: ys)
        cases hh : (y :: ys).head? with
        | none => simp at hh
        | some z =>
          have hz : y = z := by simpa using hh
          rw [hh] at h1
          show ((y :: ys).reverse.getLastD 0) = (y :: ys).headD 0
          rw [List.getLastD_eq_getLast?, h1, ← hz]
          rfl
    rw [this]
    exact hs3

/-- C1, counterexample: the source line "é\n" (bytes `[195, 169, 10]`)
decodes to the single character `é` (code point 233), yet the run writes
it to `2.txt` (its stripped BYTE count) and creates no `1.txt`; so the
bucket is NOT determined by the decoded character count as the claim
states. -/
theorem claim_C1_cex :
    decodedWord [195, 169, 10] = [233]
    ∧ (buildDictionary (fun _ => none) [[195, 169, 10]]).exitOk = true
    ∧ (buildDictionary (fun _ => none) [[195, 169, 10]]).dir 1 = none
    ∧ (buildDictionary (fun _ => none) [[195, 169, 10]]).dir 2
        = some [233, 10] := by
  refine ⟨by decide, by decide, by decide, by decide⟩

/-- C1, amended: the bucket a word is assigned to is determined by the
BYTE count of the stripped line (`n = len(word)` is computed on the raw
bytes, before decoding): the decoded word of every source line appears
among the words of the file named by that byte count, and that file
holds exactly the expected bucket content. -/
theorem claim_C1_amended (dir0 : Nat → Option (List Nat))
    (src : List (List Nat)) (line : List Nat)
    (hval : ∀ l ∈ src, (utf8Decode (bstrip l)).isSome = true)
    (hmem : line ∈ src) :
    decodedWord line ∈ fileWords src (wordLen line)
    ∧ (buildDictionary dir0 src).dir (wordLen line)
        = some (expectedContent src (wordLen line)) := by
  constructor
  · apply List.mem_map_of_mem
    rw [List.mem_filter]
    exact ⟨hmem, by simp⟩
  · have h := (buildDictionary_ok dir0 src hval).2.2.2 (wordLen line)
    have hmemlen : wordLen line ∈ srcLens src :=
      List.mem_map_of_mem wordLen hmem
    rw [h, if_pos hmemlen]

/-- C1 witness: the amended theorem applied to the one-line source
"a\n". -/
theorem claim_C1_witness :
    decodedWord [97, 10] ∈ fileWords [[97, 10]] 1
    ∧ (buildDictionary (fun _ => none) [[97, 10]]).dir 1
        = some (expectedContent [[97, 10]] 1) :=
  claim_C1_amended (fun _ => none) [[97, 10]] [97, 10]
    (by decide) (by decide)

/-- C2, counterexample: for the source line "  a\n" the claim's word
(the line after a TRAILING-whitespace strip) is "  a", of length 3 and
itself valid UTF-8; but the run creates no `3.txt` at all — it strips
the leading blanks too and writes "a" to `1.txt`. -/
theorem claim_C2_cex :
    trailingStrip [32, 32, 97, 10] = [32, 32, 97]
    ∧ utf8Decode [32, 32, 97] = some [32, 32, 97]
    ∧ (buildDictionary (fun _ => none) [[32, 32, 97, 10]]).exitOk = true
    ∧ (buildDictionary (fun _ => none) [[32, 32, 97, 10]]).dir 3 = none
    ∧ (buildDictionary (fun _ => none) [[32, 32, 97, 10]]).dir 1
        = some [97, 10] := by
  refine ⟨by decide, by decide, by decide, by decide, by decide⟩

/-- C2, amended: for every word w (each line after a BOTH-ends
whitespace strip), the decoded w appears among the lines of the output
file named by w's BYTE length and of no other output file; each created
file holds exactly its bucket, files are created exactly for the lengths
present, and the lines of all output files together are a permutation of
the decoded stripped source words. -/
theorem claim_C2_amended (src : List (List Nat))
    (hval : ∀ l ∈ src, (utf8Decode (bstrip l)).isSome = true) :
    (∀ line ∈ src,
      decodedWord line ∈ fileWords src (wordLen line)
      ∧ ∀ m, ¬ m = wordLen line
          → ¬ decodedWord line ∈ fileWords src m)
    ∧ (∀ n, (buildDictionary (fun _ => none) src).dir n =
        if n ∈ srcLens src then some (expectedContent src n) else none)
    ∧ ((((srcLens src).dedup).map (fun n => fileWords src n)).flatten).Perm
        (src.map decodedWord) := by
  refine ⟨?_, (buildDictionary_ok (fun _ => none) src hval).2.2.2,
    fileWords_flatten_perm src⟩
  intro line hline
  constructor
  · apply List.mem_map_of_mem
    rw [List.mem_filter]
    exact ⟨hline, by simp⟩
  · intro m hm hcontra
    obtain ⟨l2, hl2, heq⟩ := List.mem_map.mp hcontra
    obtain ⟨hl2s, hl2len⟩ := List.mem_filter.mp hl2
    obtain ⟨cs2, hcs2⟩ := Option.isSome_iff_exists.mp (hval l2 hl2s)
    obtain ⟨cs1, hcs1⟩ := Option.isSome_iff_exists.mp (hval line hline)
    have hcseq : cs2 = cs1 := by
      have h1 : decodedWord l2 = cs2 := by simp [decodedWord, hcs2]
      have h2 : decodedWord line = cs1 := by simp [decodedWord, hcs1]
      rw [← h1, ← h2, heq]
    rw [hcseq] at hcs2
    have hbs : bstrip l2 = bstrip line := utf8Decode_inj _ _ _ hcs2 hcs1
    apply hm
    have : wordLen l2 = m := by simpa using hl2len
    rw [← this, wordLen, wordLen, hbs]

/-- C2 witness: the amended theorem applied to the source
"a\nbb\n". -/
theorem claim_C2_witness :
    decodedWord [98, 98, 10] ∈ fileWords [[97, 10], [98, 98, 10]] 2
    ∧ ¬ decodedWord [98, 98, 10] ∈ fileWords [[97, 10], [98, 98, 10]] 1
    ∧ (buildDictionary (fun _ => none) [[97, 10], [98, 98, 10]]).dir 2
        = some [98, 98, 10]
    ∧ ((((srcLens [[97, 10], [98, 98, 10]]).dedup).map
        (fun n => fileWords [[97, 10], [98, 98, 10]] n)).flatten).Perm
        [[97], [98, 98]] := by
  have h := claim_C2_amended [[97, 10], [98, 98, 10]] (by decide)
  refine ⟨(h.1 [98, 98, 10] (by decide)).1,
    (h.1 [98, 98, 10] (by decide)).2 1 (by decide), ?_, h.2.2⟩
  rw [h.2.1 2]
  decide

/-- C3 (code bug): on the error exit path the opened handles are NOT
closed.  Run on the source "a\n" followed by the invalid byte 255: the
bucket file `1.txt` is opened, the decode error aborts the loop, and the
trailing close loop — which only runs after normal loop completion — is
never reached, so the log of closes stays empty while an open handle
exists.  This contradicts the specification's requirement that every
handle be closed on every exit path. -/
theorem claim_C3_handle_leak :
    (buildDictionary (fun _ => none) [[97, 10], [255]]).exitOk = false
    ∧ (buildDictionary (fun _ => none) [[97, 10], [255]]).opens = [1]
    ∧ (buildDictionary (fun _ => none) [[97, 10], [255]]).closes = [] := by
  refine ⟨by decide, by decide, by decide⟩

/-- C4, counterexample: for the source line " a\n" the run writes "a" to
`1.txt` and creates no `2.txt`: the leading space is stripped as well,
so leading whitespace is NOT preserved in the written word, contrary to
the claim. -/
theorem claim_C4_cex :
    trailingStrip [32, 97, 10] = [32, 97]
    ∧ bstrip [32, 97, 10] = [97]
    ∧ (buildDictionary (fun _ => none) [[32, 97, 10]]).exitOk = true
    ∧ (buildDictionary (fun _ => none) [[32, 97, 10]]).dir 2 = none
    ∧ (buildDictionary (fun _ => none) [[32, 97, 10]]).dir 1
        = some [97, 10] := by
  refine ⟨by decide, by decide, by decide, by decide, by decide⟩

/-- C4, amended: for every source line, BOTH leading and trailing ASCII
whitespace are stripped to obtain the word (`bytes.strip()` strips both
ends), and exactly that: the line is the word surrounded by a
whitespace-only prefix and suffix, the word neither starts nor ends with
whitespace, and its internal bytes — whitespace included — are
preserved. -/
theorem claim_C4_amended (line : List Nat) :
    ∃ pre suf, line = pre ++ bstrip line ++ suf
      ∧ pre.all isSpace = true ∧ suf.all isSpace = true
      ∧ isSpace ((bstrip line).headD 0) = false
      ∧ isSpace ((bstrip line).getLastD 0) = false :=
  bstrip_decomp line

/-- C5 (confirmed): if a source line fails UTF-8 decoding after a valid
prefix `pre`, the run exits with an error, the offending line is written
to no output file (every file holds exactly the content contributed by
`pre`, and the offending line's bucket file is empty if it is new), and
the words of the earlier lines remain in their files. -/
theorem claim_C5_decode_error (pre : List (List Nat)) (bad : List Nat)
    (rest : List (List Nat))
    (hpre : ∀ l ∈ pre, (utf8Decode (bstrip l)).isSome = true)
    (hbad : utf8Decode (bstrip bad) = none) :
    (buildDictionary (fun _ => none) (pre ++ bad :: rest)).exitOk = false
    ∧ ∀ n, (buildDictionary (fun _ => none) (pre ++ bad :: rest)).dir n =
        if n ∈ srcLens pre then some (expectedContent pre n)
        else if n = wordLen bad then some [] else none :=
  ⟨(buildDictionary_err (fun _ => none) pre bad rest hpre hbad).1,
    (buildDictionary_err (fun _ => none) pre bad rest hpre hbad).2.2.2⟩

/-- C5 witness: the theorem applied to the source "a\n", then the
invalid bytes [255, 255], then "bb\n": exit is non-zero, `1.txt` keeps
"a\n", the offending line's bucket `2.txt` is empty, and `3.txt` does
not exist. -/
theorem claim_C5_witness :
    (buildDictionary (fun _ => none)
      ([[97, 10]] ++ [255, 255] :: [[98, 98, 10]])).exitOk = false
    ∧ (buildDictionary (fun _ => none)
        ([[97, 10]] ++ [255, 255] :: [[98, 98, 10]])).dir 1
        = some [97, 10]
    ∧ (buildDictionary (fun _ => none)
        ([[97, 10]] ++ [255, 255] :: [[98, 98, 10]])).dir 2 = some []
    ∧ (buildDictionary (fun _ => none)
        ([[97, 10]] ++ [255, 255] :: [[98, 98, 10]])).dir 3 = none := by
  have h := claim_C5_decode_error [[97, 10]] [255, 255] [[98, 98, 10]]
    (by decide) (by decide)
  refine ⟨h.1, ?_, ?_, ?_⟩
  · rw [h.2 1]
    decide
  · rw [h.2 2]
    decide
  · rw [h.2 3]
    decide

/-- C6 (confirmed): in any run each bucket file is opened at most once
(the log of opens has no duplicates); in a successful run the opened
buckets are exactly the lengths present in the source, every opened
handle is closed (only) at the end, and each opened file holds exactly
this run's bucket content — in particular any pre-existing file of the
same name was truncated, whatever `dir0` contained. -/
theorem claim_C6_single_open (dir0 : Nat → Option (List Nat))
    (src : List (List Nat)) :
    (buildDictionary dir0 src).opens.Nodup
    ∧ ((buildDictionary dir0 src).exitOk = true →
        (∀ n, n ∈ (buildDictionary dir0 src).opens ↔ n ∈ srcLens src)
        ∧ (buildDictionary dir0 src).closes = (buildDictionary dir0 src).opens
        ∧ ∀ n ∈ (buildDictionary dir0 src).opens,
            (buildDictionary dir0 src).dir n
              = some (expectedContent src n)) := by
  have hbase := procLines_opens_keys src ⟨dir0, [], []⟩ rfl List.nodup_nil
  constructor
  · have : (buildDictionary dir0 src).opens
        = (procLines ⟨dir0, [], []⟩ src).1.opens := rfl
    rw [this, hbase.1]
    exact hbase.2
  · intro hok
    have hok2 : (procLines ⟨dir0, [], []⟩ src).2 = true := hok
    have hval := procLines_true_allValid src ⟨dir0, [], []⟩ hok2
    obtain ⟨_, hopens, hcloses, hdir⟩ := buildDictionary_ok dir0 src hval
    refine ⟨?_, by rw [hcloses, hopens], ?_⟩
    · intro n
      rw [hopens]
      have := mem_append_newKeys (srcLens src) [] n
      simpa using this
    · intro n hn
      rw [hopens] at hn
      have hmem : n ∈ srcLens src := by
        have := mem_append_newKeys (srcLens src) [] n
        simp at this
        exact this.mp hn
      rw [hdir n, if_pos hmem]

/-- C6 witness: the theorem applied to the source "a\nb\n" over a dirty
initial directory (every file pre-existing with content [55]): both
words share bucket 1, which is opened once, truncated, closed at the
end, and holds "a\nb\n". -/
theorem claim_C6_witness :
    (buildDictionary (fun _ => some [55]) [[97, 10], [98, 10]]).opens.Nodup
    ∧ (buildDictionary (fun _ => some [55]) [[97, 10], [98, 10]]).closes
      = (buildDictionary (fun _ => some [55]) [[97, 10], [98, 10]]).opens
    ∧ (buildDictionary (fun _ => some [55]) [[97, 10], [98, 10]]).dir 1
      = some [97, 10, 98, 10] := by
  have h := claim_C6_single_open (fun _ => some [55]) [[97, 10], [98, 10]]
  have h2 := h.2 (by decide)
  refine ⟨h.1, h2.2.1, ?_⟩
  rw [h2.2.2 1 (by decide)]
  decide

/-- C7 (confirmed): after a successful run from a clean directory, the
file for each present length holds exactly its bucket's words in source
order, each word followed by a newline; files exist exactly for the
lengths present. -/
theorem claim_C7_source_order (src : List (List Nat))
    (hval : ∀ l ∈ src, (utf8Decode (bstrip l)).isSome = true) :
    ∀ n, (buildDictionary (fun _ => none) src).dir n =
      if n ∈ srcLens src
      then some (((fileWords src n).map (fun w => w ++ [10])).flatten)
      else none :=
  (buildDictionary_ok (fun _ => none) src hval).2.2.2

/-- C7 witness: the specification's own scenario "cat\ndog\nbee\n
antelope\n": `3.txt` holds "cat\ndog\nbee\n" in source order and
`8.txt` holds "antelope\n"; no `4.txt` exists. -/
theorem claim_C7_witness :
    (buildDictionary (fun _ => none) [[99, 97, 116, 10], [100, 111, 103, 10],
      [98, 101, 101, 10], [97, 110, 116, 101, 108, 111, 112, 101, 10]]).dir 3
      = some [99, 97, 116, 10, 100, 111, 103, 10, 98, 101, 101, 10]
    ∧ (buildDictionary (fun _ => none) [[99, 97, 116, 10],
        [100, 111, 103, 10], [98, 101, 101, 10],
        [97, 110, 116, 101, 108, 111, 112, 101, 10]]).dir 8
      = some [97, 110, 116, 101, 108, 111, 112, 101, 10]
    ∧ (buildDictionary (fun _ => none) [[99, 97, 116, 10],
        [100, 111, 103, 10], [98, 101, 101, 10],
        [97, 110, 116, 101, 108, 111, 112, 101, 10]]).dir 4 = none := by
  have h := claim_C7_source_order [[99, 97, 116, 10], [100, 111, 103, 10],
    [98, 101, 101, 10], [97, 110, 116, 101, 108, 111, 112, 101, 10]]
    (by decide)
  refine ⟨?_, ?_, ?_⟩
  · rw [h 3]
    decide
  · rw [h 8]
    decide
  · rw [h 4]
    decide

/-- C8 (confirmed): on an empty source the run exits successfully,
opens no file, and the clean working directory stays empty — zero
output files are created. -/
theorem claim_C8_empty_source :
    (buildDictionary (fun _ => none) []).exitOk = true
    ∧ (buildDictionary (fun _ => none) []).opens = []
    ∧ ∀ n, (buildDictionary (fun _ => none) []).dir n = none :=
  ⟨rfl, rfl, fun _ => rfl⟩

/-- C9 (confirmed): a successful run's output files depend only on the
source, not on the initial directory contents (mode "w" truncates): the
file created for each present length is byte-identical across runs from
any two starting directories — in particular, running the tool twice on
the same unchanged source from a clean directory produces byte-identical
output files. -/
theorem claim_C9_idempotent (src : List (List Nat))
    (hval : ∀ l ∈ src, (utf8Decode (bstrip l)).isSome = true)
    (d1 d2 : Nat → Option (List Nat)) :
    (buildDictionary d1 src).exitOk = true
    ∧ ∀ n, n ∈ srcLens src →
        (buildDictionary d1 src).dir n = (buildDictionary d2 src).dir n
        ∧ (buildDictionary d1 src).dir n = some (expectedContent src n) := by
  obtain ⟨hok1, _, _, hdir1⟩ := buildDictionary_ok d1 src hval
  obtain ⟨_, _, _, hdir2⟩ := buildDictionary_ok d2 src hval
  refine ⟨hok1, ?_⟩
  intro n hn
  rw [hdir1 n, hdir2 n, if_pos hn, if_pos hn]
  exact ⟨rfl, rfl⟩

/-- C9 witness: the theorem applied to the source "a\n", comparing a run
from a clean directory with a run from a directory where every file
pre-exists with content [55]: `1.txt` comes out identical. -/
theorem claim_C9_witness :
    (buildDictionary (fun _ => none) [[97, 10]]).exitOk = true
    ∧ (buildDictionary (fun _ => none) [[97, 10]]).dir 1
      = (buildDictionary (fun _ => some [55]) [[97, 10]]).dir 1
    ∧ (buildDictionary (fun _ => none) [[97, 10]]).dir 1
      = some (expectedContent [[97, 10]] 1) := by
  have h := claim_C9_idempotent [[97, 10]] (by decide)
    (fun _ => none) (fun _ => some [55])
  exact ⟨h.1, (h.2 1 (by decide)).1, (h.2 1 (by decide)).2⟩

/-- C10 (confirmed): when a line fails UTF-8 decoding, its bucket file
(named by the stripped BYTE length of that line) has already been
opened before the decode is attempted: the run aborts with the length in
the open log, and if that bucket is new, the file exists and has been
truncated to empty — whatever the starting directory held under that
name — even though the offending word is never written to it. -/
theorem claim_C10_open_before_decode (dir0 : Nat → Option (List Nat))
    (pre : List (List Nat)) (bad : List Nat) (rest : List (List Nat))
    (hpre : ∀ l ∈ pre, (utf8Decode (bstrip l)).isSome = true)
    (hbad : utf8Decode (bstrip bad) = none) :
    (buildDictionary dir0 (pre ++ bad :: rest)).exitOk = false
    ∧ wordLen bad ∈ (buildDictionary dir0 (pre ++ bad :: rest)).opens
    ∧ (¬ wordLen bad ∈ srcLens pre →
        (buildDictionary dir0 (pre ++ bad :: rest)).dir (wordLen bad)
          = some []) := by
  obtain ⟨hexit, _, hopens, hdir⟩ :=
    buildDictionary_err dir0 pre bad rest hpre hbad
  refine ⟨hexit, ?_, ?_⟩
  · rw [hopens]
    by_cases hb : wordLen bad ∈ srcLens pre
    · rw [if_pos hb]
      have := mem_append_newKeys (srcLens pre) [] (wordLen bad)
      simp at this
      exact this.mpr hb
    · rw [if_neg hb]
      simp
  · intro hb
    rw [hdir (wordLen bad), if_neg hb, if_pos rfl]

/-- C10 witness: the theorem applied over a dirty directory (every file
pre-existing with content [55]) to the source "a\n" followed by the
invalid bytes [255, 255]: the run aborts, bucket 2 is in the open log,
and `2.txt` exists truncated to empty. -/
theorem claim_C10_witness :
    (buildDictionary (fun _ => some [55])
      ([[97, 10]] ++ [255, 255] :: [])).exitOk = false
    ∧ 2 ∈ (buildDictionary (fun _ => some [55])
        ([[97, 10]] ++ [255, 255] :: [])).opens
    ∧ (buildDictionary (fun _ => some [55])
        ([[97, 10]] ++ [255, 255] :: [])).dir 2 = some [] := by
  have h := claim_C10_open_before_decode (fun _ => some [55])
    [[97, 10]] [255, 255] [] (by decide) (by decide)
  exact ⟨h.1, h.2.1, h.2.2 (by decide)⟩

end BuildDictionary
